import Mathlib

/-!
Verification of the subgraph pattern-matching and rewrite engine in
`caffe2/core/transform.cc`.

The engine is embedded shallowly:

* C++ `std::vector<int>` subgraphs become `List Nat`; the in-place
  `push_back` / `pop_back` mutation of the shared working subgraph is
  modelled by threading the list through each call and returning it, so
  `push_back(j)` is `subgraph ++ [j]` and the following `pop_back()` is
  `.dropLast` applied to the list that came back from the recursive call.
* `std::vector<bool>::at` (which throws on an out-of-range index),
  `CAFFE_ENFORCE` and `CAFFE_THROW` are modelled with `Except String`.
* The recursion of `PatternMatchHelper` / `TryNeighbors` is made
  structural with an explicit fuel parameter; running out of fuel is an
  `Except.error`, and `PatternMatch` supplies a fuel that dominates the
  depth of the call chain on well-formed graphs.
* The three virtual rules (`PatternRule`, `ValidatorRule`,
  `ReplaceRule`) become function fields of a `Transform` structure;
  `ReplaceRule`, which mutates the graph in place and returns a success
  flag, becomes `List Nat → Graph → Bool × Graph`.
-/

set_option linter.unusedVariables false

/-- Modelled from the spec: a computation-graph node (`transform::Graph`'s
node type, declared outside `src/`) carries an active flag and two
neighbor maps (`parents`, `children`), each mapping a neighboring node
index to the list of edge labels connecting them.  A `std::map` iterated
in ascending key order is modelled as an association list. -/
structure Node where
  active : Bool
  parents : List (Nat × List String)
  children : List (Nat × List String)
deriving DecidableEq, Inhabited

/-- Modelled from the spec: `transform::Graph` is a fixed-size indexed
collection of nodes. -/
structure Graph where
  nodes : List Node
deriving DecidableEq, Inhabited

/-- Modelled from the spec: `graph.size()`. -/
def Graph.size (g : Graph) : Nat := g.nodes.length

/-- Modelled from the spec: `graph.node(i)` returns the node record at
index `i`. -/
def Graph.node (g : Graph) (i : Nat) : Node := g.nodes.getD i default

/-- Modelled from the spec: `graph->is_node_active(i)`. -/
def Graph.is_node_active (g : Graph) (i : Nat) : Bool := (g.node i).active

/-- The enum `Transform::PatternMatchType` (`transform.h`): the three traversal
strategies. -/
inductive PatternMatchType where
  | CONNECTED_SUBGRAPH
  | SORTED_WRT_EXECUTION_ORDER
  | GENERAL
deriving DecidableEq

/-- A `Transform` object: its configured strategy together with the
three virtual rules supplied by a concrete transform. -/
structure Transform where
  pattern_match_type_ : PatternMatchType
  PatternRule : Graph → List Nat → Nat → Bool
  ValidatorRule : Graph → List Nat → Bool
  ReplaceRule : List Nat → Graph → Bool × Graph

/-- Models `std::vector<bool>::at(i)`: bounds-checked element access, throwing
`std::out_of_range` when `i` is out of bounds. -/
def atOrThrow (v : List Bool) (i : Nat) : Except String Bool :=
  match v.get? i with
  | some b => Except.ok b
  | none => Except.error "vector::at out of range"

/-- Lines 78-81 of `transform.cc`: if the current subgraph is valid and
strictly larger than the best seen so far, it becomes the new best. -/
def updateBest (T : Transform) (g : Graph) (subgraph best_subgraph : List Nat) : List Nat :=
  if T.ValidatorRule g subgraph && decide (best_subgraph.length < subgraph.length) then
    subgraph
  else
    best_subgraph

mutual

/-- Models `Transform::TryNeighbors`: iterate over a neighbor map in ascending
key order; for each key `j` not already in the subgraph, not globally
matched and accepted by `PatternRule`, push `j`, recurse, then pop. -/
def Transform.TryNeighbors (T : Transform) (g : Graph)
    (neighbors : List (Nat × List String)) (matched : List Bool)
    (subgraph best_subgraph : List Nat) :
    Nat → Except String (List Nat × List Nat)
  | 0 => Except.error "out of fuel"
  | fuel + 1 =>
    match neighbors with
    | [] => Except.ok (subgraph, best_subgraph)
    | (j, _) :: rest =>
      if j ∈ subgraph then
        Transform.TryNeighbors T g rest matched subgraph best_subgraph fuel
      else do
        let b ← atOrThrow matched j
        if !b && T.PatternRule g subgraph j then do
          let (sg1, best1) ←
            Transform.PatternMatchHelper T g matched (subgraph ++ [j]) best_subgraph fuel
          Transform.TryNeighbors T g rest matched sg1.dropLast best1 fuel
        else
          Transform.TryNeighbors T g rest matched subgraph best_subgraph fuel
termination_by structural fuel => fuel

/-- The `for (int i = 0; i < subgraph.size(); i++)` loop of the
`CONNECTED_SUBGRAPH` branch of `Transform::PatternMatchHelper`: for each
node already in the subgraph, try its children then its parents, with
`CAFFE_ENFORCE` checking after each call that the subgraph size is the
one recorded before the call. -/
def Transform.connectedFor (T : Transform) (g : Graph) (matched : List Bool)
    (size_before : Nat) (i : Nat) (subgraph best_subgraph : List Nat) :
    Nat → Except String (List Nat × List Nat)
  | 0 => Except.error "out of fuel"
  | fuel + 1 =>
    if h : i < subgraph.length then do
      -- `int x = subgraph[i];` — read once, before the children call.
      let (sg1, best1) ←
        Transform.TryNeighbors T g (g.node (subgraph.get ⟨i, h⟩)).children matched
          subgraph best_subgraph fuel
      if size_before = sg1.length then do
        let (sg2, best2) ←
          Transform.TryNeighbors T g (g.node (subgraph.get ⟨i, h⟩)).parents matched
            sg1 best1 fuel
        if size_before = sg2.length then
          Transform.connectedFor T g matched size_before (i + 1) sg2 best2 fuel
        else
          Except.error "Subgraph size should not change after returning from recursive call."
      else
        Except.error "Subgraph size should not change after returning from recursive call."
    else
      Except.ok (subgraph, best_subgraph)
termination_by structural fuel => fuel

/-- The `for (int i = start_idx; i < graph.size(); i++)` loop of the
`SORTED_WRT_EXECUTION_ORDER` branch of `Transform::PatternMatchHelper`. -/
def Transform.sortedFor (T : Transform) (g : Graph) (matched : List Bool)
    (i : Nat) (subgraph best_subgraph : List Nat) :
    Nat → Except String (List Nat × List Nat)
  | 0 => Except.error "out of fuel"
  | fuel + 1 =>
    if i < g.size then do
      let b ← atOrThrow matched i
      if !b && T.PatternRule g subgraph i then do
        let (sg1, best1) ←
          Transform.PatternMatchHelper T g matched (subgraph ++ [i]) best_subgraph fuel
        Transform.sortedFor T g matched (i + 1) sg1.dropLast best1 fuel
      else
        Transform.sortedFor T g matched (i + 1) subgraph best_subgraph fuel
    else
      Except.ok (subgraph, best_subgraph)
termination_by structural fuel => fuel

/-- The `for (int i = 0; i < graph.size(); i++)` loop of the `GENERAL`
branch of `Transform::PatternMatchHelper`. -/
def Transform.generalFor (T : Transform) (g : Graph) (matched : List Bool)
    (i : Nat) (subgraph best_subgraph : List Nat) :
    Nat → Except String (List Nat × List Nat)
  | 0 => Except.error "out of fuel"
  | fuel + 1 =>
    if i < g.size then
      if i ∈ subgraph then
        Transform.generalFor T g matched (i + 1) subgraph best_subgraph fuel
      else do
        let b ← atOrThrow matched i
        if !b && T.PatternRule g subgraph i then do
          let (sg1, best1) ←
            Transform.PatternMatchHelper T g matched (subgraph ++ [i]) best_subgraph fuel
          Transform.generalFor T g matched (i + 1) sg1.dropLast best1 fuel
        else
          Transform.generalFor T g matched (i + 1) subgraph best_subgraph fuel
    else
      Except.ok (subgraph, best_subgraph)
termination_by structural fuel => fuel

/-- Models `Transform::PatternMatchHelper`: record the current subgraph as the
best one when it is valid and strictly larger, then expand according to
the configured strategy. -/
def Transform.PatternMatchHelper (T : Transform) (g : Graph) (matched : List Bool)
    (subgraph best_subgraph : List Nat) :
    Nat → Except String (List Nat × List Nat)
  | 0 => Except.error "out of fuel"
  | fuel + 1 =>
    let best1 := updateBest T g subgraph best_subgraph
    let size_before := subgraph.length
    match T.pattern_match_type_ with
    | PatternMatchType.CONNECTED_SUBGRAPH =>
      Transform.connectedFor T g matched size_before 0 subgraph best1 fuel
    | PatternMatchType.SORTED_WRT_EXECUTION_ORDER =>
      let start_idx :=
        match subgraph.getLast? with
        | none => 0
        | some last => last + 1
      Transform.sortedFor T g matched start_idx subgraph best1 fuel
    | PatternMatchType.GENERAL =>
      Transform.generalFor T g matched 0 subgraph best1 fuel
termination_by structural fuel => fuel

end

/-- The fuel handed to `PatternMatchHelper` by `PatternMatch`; it
dominates the depth of the recursive call chain on well-formed graphs. -/
def matchFuel (g : Graph) : Nat := (g.size + 2) ^ 4

/-- Lines 39-41 of `transform.cc`: `for (const auto& x : best_subgraph)
matched[x] = true;`. -/
def markMatched (matched : List Bool) (xs : List Nat) : List Bool :=
  xs.foldl (fun m x => m.set x true) matched

/-- The `for (int idx = 0; idx < graph.size(); ++idx)` loop of
`Transform::PatternMatch`, iterating `remaining` more times starting at
`idx`.  Each iteration starts a fresh working subgraph and best buffer,
expands from `idx` when it is unmatched and accepted against the empty
subgraph, and records a non-empty best buffer as a match, marking its
nodes. -/
def Transform.patternMatchFor (T : Transform) (g : Graph) :
    (matched : List Bool) → (matchList : List (List Nat)) → (idx : Nat) →
    (remaining : Nat) → Except String (List (List Nat))
  | _, matchList, _, 0 => Except.ok matchList
  | matched, matchList, idx, remaining + 1 => do
    let b ← atOrThrow matched idx
    let best_subgraph ←
      if !b && T.PatternRule g [] idx then do
        let (sg1, best1) ← Transform.PatternMatchHelper T g matched [idx] [] (matchFuel g)
        let _subgraph := sg1.dropLast
        pure best1
      else
        pure ([] : List Nat)
    if best_subgraph.length > 0 then
      Transform.patternMatchFor T g (markMatched matched best_subgraph)
        (matchList ++ [best_subgraph]) (idx + 1) remaining
    else
      Transform.patternMatchFor T g matched matchList (idx + 1) remaining

/-- Models `Transform::PatternMatch`: scan every start index in ascending
order with an all-false matched registry and no matches recorded. -/
def Transform.PatternMatch (T : Transform) (g : Graph) :
    Except String (List (List Nat)) :=
  Transform.patternMatchFor T g (List.replicate g.size false) [] 0 g.size

/-- Models `Transform::ReplacePattern`: for each match in discovery order,
check that every member node is still active; if so, apply
`ReplaceRule`, and treat a `false` result as `CAFFE_THROW("Replace
failed!")`, which aborts the rest of the apply phase.  The result is
the final graph together with the thrown message, if any. -/
def Transform.ReplacePattern (T : Transform) :
    List (List Nat) → Graph → Graph × Option String
  | [], g => (g, none)
  | match0 :: rest, g =>
    let is_match_active := match0.all fun idx => g.is_node_active idx
    if is_match_active then
      let result := T.ReplaceRule match0 g
      if result.1 then
        Transform.ReplacePattern T rest result.2
      else
        (result.2, some "Replace failed!")
    else
      Transform.ReplacePattern T rest g

/-- Whether `j` is a key of the `children` or of the `parents` neighbor map of
node `x`: exactly the indices `TryNeighbors` is offered when expanding
from `x`. -/
def IsNeighbor (g : Graph) (x j : Nat) : Prop :=
  j ∈ (g.node x).children.map Prod.fst ∨ j ∈ (g.node x).parents.map Prod.fst

/-- The symmetric parent/child adjacency between two nodes. -/
def AdjSym (g : Graph) (x y : Nat) : Prop :=
  IsNeighbor g x y ∨ IsNeighbor g y x

/-- A subgraph grown connectedly: it is built from a single start node
by repeatedly appending a parent or child neighbor of a node already
present. -/
inductive Grown (g : Graph) : List Nat → Prop where
  | single (x : Nat) : Grown g [x]
  | snoc (l : List Nat) (j : Nat) (h : Grown g l)
      (hx : ∃ x ∈ l, IsNeighbor g x j) : Grown g (l ++ [j])

/-- Predicate `incAccFrom T g pre l`: starting from the already-accepted prefix
`pre`, every element of `l` is accepted by `PatternRule` against the
subgraph formed of everything before it. -/
def incAccFrom (T : Transform) (g : Graph) : List Nat → List Nat → Bool
  | _, [] => true
  | pre, j :: rest => T.PatternRule g pre j && incAccFrom T g (pre ++ [j]) rest

/-- Every element of `l` was accepted by `PatternRule` against the
prefix of `l` preceding it. -/
def incAcc (T : Transform) (g : Graph) (l : List Nat) : Bool :=
  incAccFrom T g [] l

/-- The conditions the matcher checks, in every strategy, before
pushing candidate `j` onto the working subgraph `sg`: `j` is unmatched,
`PatternRule` accepts it, and the strategy-specific side condition
holds (`j` fresh and adjacent to a member for `CONNECTED_SUBGRAPH`,
`j` beyond the last element for `SORTED_WRT_EXECUTION_ORDER`, `j`
fresh for `GENERAL`). -/
def pushGuard (T : Transform) (g : Graph) (matched : List Bool)
    (sg : List Nat) (j : Nat) : Prop :=
  atOrThrow matched j = Except.ok false ∧ T.PatternRule g sg j = true ∧
    (match T.pattern_match_type_ with
     | PatternMatchType.CONNECTED_SUBGRAPH => j ∉ sg ∧ ∃ x ∈ sg, IsNeighbor g x j
     | PatternMatchType.SORTED_WRT_EXECUTION_ORDER => ∀ lst ∈ sg.getLast?, lst < j
     | PatternMatchType.GENERAL => j ∉ sg)

/-- How the best-subgraph buffer may evolve across a stretch of the
search: either it is untouched, or it was overwritten (possibly
repeatedly) and the final value is strictly longer, satisfies the
subgraph invariant `Q`, and passes `ValidatorRule`. -/
def BestEvol (T : Transform) (g : Graph) (Q : List Nat → Prop)
    (b b' : List Nat) : Prop :=
  b' = b ∨ (b.length < b'.length ∧ Q b' ∧ T.ValidatorRule g b' = true)

/-- Concrete test data: the chain graph 0 → 1 → 2 with all nodes
active. -/
def chainGraph : Graph :=
  { nodes :=
      [ { active := true, parents := [], children := [(1, ["t0"])] },
        { active := true, parents := [(0, ["t0"])], children := [(2, ["t1"])] },
        { active := true, parents := [(1, ["t1"])], children := [] } ] }

/-- A rewrite that deactivates the matched nodes and keeps the rest of
the graph unchanged, like a typical `ReplaceRule` implementation. -/
def deactivateNodes (m : List Nat) (g : Graph) : Graph :=
  { nodes := (List.range g.nodes.length).map fun i =>
      if i ∈ m then { g.node i with active := false } else g.node i }

/-- A permissive connected transform: accept anything, validate
anything, rewrite deactivates every matched node. -/
def connAllT : Transform :=
  { pattern_match_type_ := PatternMatchType.CONNECTED_SUBGRAPH
    PatternRule := fun _ _ _ => true
    ValidatorRule := fun _ _ => true
    ReplaceRule := fun m g => (true, deactivateNodes m g) }

/-- A connected transform that accepts anything but validates only
singleton subgraphs (spec scenario A). -/
def singleT : Transform :=
  { pattern_match_type_ := PatternMatchType.CONNECTED_SUBGRAPH
    PatternRule := fun _ _ _ => true
    ValidatorRule := fun _ sg => sg.length == 1
    ReplaceRule := fun m g => (true, deactivateNodes m g) }

/-- A permissive transform using the execution-order strategy. -/
def sortedAllT : Transform :=
  { pattern_match_type_ := PatternMatchType.SORTED_WRT_EXECUTION_ORDER
    PatternRule := fun _ _ _ => true
    ValidatorRule := fun _ _ => true
    ReplaceRule := fun m g => (true, deactivateNodes m g) }

/-- A transform whose rewrite succeeds exactly on matches starting at
node 0 (deactivating them) and fails on every other match. -/
def wRepT : Transform :=
  { pattern_match_type_ := PatternMatchType.GENERAL
    PatternRule := fun _ _ _ => true
    ValidatorRule := fun _ _ => true
    ReplaceRule := fun m g =>
      if m.headI = 0 then (true, deactivateNodes m g) else (false, g) }

example : connAllT.PatternMatch chainGraph = Except.ok [[0, 1, 2]] := rfl

example : singleT.PatternMatch chainGraph = Except.ok [[0], [1], [2]] := rfl

example : sortedAllT.PatternMatch chainGraph = Except.ok [[0, 1, 2]] := rfl

/-! ### Basic lemmas -/

@[simp]
theorem ok_bind {α β : Type} (a : α) (f : α → Except String β) :
    (Except.ok a >>= f) = f a := rfl

@[simp]
theorem error_bind {α β : Type} (e : String) (f : α → Except String β) :
    ((Except.error e : Except String α) >>= f) = Except.error e := rfl

@[simp]
theorem pure_eq_ok {α : Type} (a : α) : (pure a : Except String α) = Except.ok a := rfl

theorem dropLast_snoc (l : List Nat) (a : Nat) : (l ++ [a]).dropLast = l := by
  simp

theorem bestEvol_refl (T : Transform) (g : Graph) (Q : List Nat → Prop)
    (b : List Nat) : BestEvol T g Q b b := Or.inl rfl

theorem bestEvol_trans {T : Transform} {g : Graph} {Q : List Nat → Prop}
    {a b c : List Nat} (h1 : BestEvol T g Q a b) (h2 : BestEvol T g Q b c) :
    BestEvol T g Q a c := by
  rcases h2 with rfl | ⟨hlen2, hQ2, hV2⟩
  · exact h1
  · rcases h1 with rfl | ⟨hlen1, hQ1, hV1⟩
    · exact Or.inr ⟨hlen2, hQ2, hV2⟩
    · exact Or.inr ⟨hlen1.trans hlen2, hQ2, hV2⟩

theorem bestEvol_updateBest (T : Transform) (g : Graph) (Q : List Nat → Prop)
    (sg best : List Nat) (hQ : Q sg) :
    BestEvol T g Q best (updateBest T g sg best) := by
  unfold updateBest
  split
  · next hcond =>
    rcases Bool.and_eq_true _ _ |>.mp hcond with ⟨hV, hlen⟩
    exact Or.inr ⟨of_decide_eq_true hlen, hQ, hV⟩
  · exact Or.inl rfl

theorem tryNeighbors_succ_nil (T : Transform) (g : Graph) (matched : List Bool)
    (sg best : List Nat) (n : Nat) :
    Transform.TryNeighbors T g [] matched sg best (n + 1) = Except.ok (sg, best) := rfl

theorem tryNeighbors_succ_cons (T : Transform) (g : Graph) (j : Nat)
    (ls : List String) (rest : List (Nat × List String)) (matched : List Bool)
    (sg best : List Nat) (n : Nat) :
    Transform.TryNeighbors T g ((j, ls) :: rest) matched sg best (n + 1) =
      (if j ∈ sg then
        Transform.TryNeighbors T g rest matched sg best n
      else do
        let b ← atOrThrow matched j
        if !b && T.PatternRule g sg j then do
          let (sg1, best1) ←
            Transform.PatternMatchHelper T g matched (sg ++ [j]) best n
          Transform.TryNeighbors T g rest matched sg1.dropLast best1 n
        else
          Transform.TryNeighbors T g rest matched sg best n) := rfl

/-! ### The master invariant of the backtracking search

For any subgraph invariant `Q` stable under guarded pushes, every
function of the mutual recursion (when it returns without throwing)
returns the working subgraph exactly as it received it, and evolves the
best buffer only by overwriting it with validated subgraphs satisfying
`Q`. -/

theorem matchInvariant (T : Transform) (g : Graph) (matched : List Bool)
    (Q : List Nat → Prop)
    (HQ : ∀ sg j, Q sg → pushGuard T g matched sg j → Q (sg ++ [j])) :
    ∀ fuel : Nat,
      (∀ sg best out,
        Transform.PatternMatchHelper T g matched sg best fuel = Except.ok out →
        Q sg → out.1 = sg ∧ BestEvol T g Q best out.2) ∧
      (∀ nb sg best out,
        T.pattern_match_type_ = PatternMatchType.CONNECTED_SUBGRAPH →
        (∀ j ∈ nb.map Prod.fst, ∃ x ∈ sg, IsNeighbor g x j) →
        Transform.TryNeighbors T g nb matched sg best fuel = Except.ok out →
        Q sg → out.1 = sg ∧ BestEvol T g Q best out.2) ∧
      (∀ sb i sg best out,
        T.pattern_match_type_ = PatternMatchType.CONNECTED_SUBGRAPH →
        Transform.connectedFor T g matched sb i sg best fuel = Except.ok out →
        Q sg → out.1 = sg ∧ BestEvol T g Q best out.2) ∧
      (∀ i sg best out,
        T.pattern_match_type_ = PatternMatchType.SORTED_WRT_EXECUTION_ORDER →
        (∀ lst ∈ sg.getLast?, lst < i) →
        Transform.sortedFor T g matched i sg best fuel = Except.ok out →
        Q sg → out.1 = sg ∧ BestEvol T g Q best out.2) ∧
      (∀ i sg best out,
        T.pattern_match_type_ = PatternMatchType.GENERAL →
        Transform.generalFor T g matched i sg best fuel = Except.ok out →
        Q sg → out.1 = sg ∧ BestEvol T g Q best out.2) := by
  intro fuel
  induction fuel with
  | zero =>
    refine ⟨?_, ?_, ?_, ?_, ?_⟩
    · intro sg best out hok
      rw [Transform.PatternMatchHelper.eq_def] at hok
      exact absurd hok (by simp)
    · intro nb sg best out _ _ hok
      rw [Transform.TryNeighbors.eq_def] at hok
      exact absurd hok (by simp)
    · intro sb i sg best out _ hok
      rw [Transform.connectedFor.eq_def] at hok
      exact absurd hok (by simp)
    · intro i sg best out _ _ hok
      rw [Transform.sortedFor.eq_def] at hok
      exact absurd hok (by simp)
    · intro i sg best out _ hok
      rw [Transform.generalFor.eq_def] at hok
      exact absurd hok (by simp)
  | succ n ih =>
    obtain ⟨ihH, ihT, ihC, ihS, ihG⟩ := ih
    refine ⟨?_, ?_, ?_, ?_, ?_⟩
    -- PatternMatchHelper
    · intro sg best out hok hQ
      rw [Transform.PatternMatchHelper] at hok
      have hub := bestEvol_updateBest T g Q sg best hQ
      cases hstrat : T.pattern_match_type_ with
      | CONNECTED_SUBGRAPH =>
        rw [hstrat] at hok
        obtain ⟨h1, h2⟩ := ihC _ _ _ _ _ hstrat hok hQ
        exact ⟨h1, bestEvol_trans hub h2⟩
      | SORTED_WRT_EXECUTION_ORDER =>
        rw [hstrat] at hok
        have hlast : ∀ lst ∈ sg.getLast?,
            lst < (match sg.getLast? with | none => 0 | some last => last + 1) := by
          cases hl : sg.getLast? with
          | none => simp
          | some last => simp [hl]
        obtain ⟨h1, h2⟩ := ihS _ _ _ _ hstrat hlast hok hQ
        exact ⟨h1, bestEvol_trans hub h2⟩
      | GENERAL =>
        rw [hstrat] at hok
        obtain ⟨h1, h2⟩ := ihG _ _ _ _ hstrat hok hQ
        exact ⟨h1, bestEvol_trans hub h2⟩
    -- TryNeighbors
    · intro nb sg best out hstrat hn hok hQ
      cases nb with
      | nil =>
        rw [tryNeighbors_succ_nil] at hok
        simp only [Except.ok.injEq] at hok
        subst hok
        exact ⟨rfl, bestEvol_refl T g Q best⟩
      | cons e rest =>
        obtain ⟨j, labels⟩ := e
        rw [tryNeighbors_succ_cons] at hok
        have hnrest : ∀ j ∈ rest.map Prod.fst, ∃ x ∈ sg, IsNeighbor g x j := by
          intro j' hj'
          exact hn j' (by simp at hj' ⊢; exact Or.inr hj')
        by_cases hj : j ∈ sg
        · rw [if_pos hj] at hok
          exact ihT _ _ _ _ hstrat hnrest hok hQ
        · rw [if_neg hj] at hok
          cases hb : atOrThrow matched j with
          | error e =>
            rw [hb, error_bind] at hok
            exact absurd hok (by simp)
          | ok b =>
            rw [hb, ok_bind] at hok
            by_cases hcond : (!b && T.PatternRule g sg j) = true
            · rw [if_pos hcond] at hok
              rcases Bool.and_eq_true _ _ |>.mp hcond with ⟨hbf, hrule⟩
              have hbfalse : b = false := by
                cases b
                · rfl
                · exact absurd hbf (by decide)
              subst hbfalse
              have hguard : pushGuard T g matched sg j := by
                refine ⟨hb, hrule, ?_⟩
                rw [hstrat]
                exact ⟨hj, hn j (by simp)⟩
              have hQ' : Q (sg ++ [j]) := HQ sg j hQ hguard
              cases hh : Transform.PatternMatchHelper T g matched (sg ++ [j]) best n with
              | error e =>
                rw [hh, error_bind] at hok
                exact absurd hok (by simp)
              | ok p =>
                rw [hh, ok_bind] at hok
                obtain ⟨sg1, best1⟩ := p
                obtain ⟨hp1, hp2⟩ := ihH _ _ _ hh hQ'
                simp only at hp1 hp2
                subst hp1
                simp only [] at hok
                rw [dropLast_snoc] at hok
                obtain ⟨h1, h2⟩ := ihT _ _ _ _ hstrat hnrest hok hQ
                exact ⟨h1, bestEvol_trans hp2 h2⟩
            · rw [if_neg hcond] at hok
              exact ihT _ _ _ _ hstrat hnrest hok hQ
    -- connectedFor
    · intro sb i sg best out hstrat hok hQ
      rw [Transform.connectedFor] at hok
      split at hok
      · next h =>
        have hxmem : sg.get ⟨i, h⟩ ∈ sg := List.get_mem sg i h
        cases h1 : Transform.TryNeighbors T g (g.node (sg.get ⟨i, h⟩)).children
            matched sg best n with
        | error e =>
          rw [h1, error_bind] at hok
          exact absurd hok (by simp)
        | ok p1 =>
          rw [h1, ok_bind] at hok
          obtain ⟨sg1, b1⟩ := p1
          have hn1 : ∀ j ∈ (g.node (sg.get ⟨i, h⟩)).children.map Prod.fst,
              ∃ y ∈ sg, IsNeighbor g y j := by
            intro j hj
            exact ⟨sg.get ⟨i, h⟩, hxmem, Or.inl hj⟩
          obtain ⟨hp1, hp2⟩ := ihT _ _ _ _ hstrat hn1 h1 hQ
          simp only at hp1 hp2
          simp only [] at hok
          rw [hp1] at hok
          by_cases hsb : sb = sg.length
          · rw [if_pos hsb] at hok
            cases h2 : Transform.TryNeighbors T g (g.node (sg.get ⟨i, h⟩)).parents
                matched sg b1 n with
            | error e =>
              rw [h2, error_bind] at hok
              exact absurd hok (by simp)
            | ok p2 =>
              rw [h2, ok_bind] at hok
              obtain ⟨sg2, b2⟩ := p2
              have hn2 : ∀ j ∈ (g.node (sg.get ⟨i, h⟩)).parents.map Prod.fst,
                  ∃ y ∈ sg, IsNeighbor g y j := by
                intro j hj
                exact ⟨sg.get ⟨i, h⟩, hxmem, Or.inr hj⟩
              obtain ⟨hq1, hq2⟩ := ihT _ _ _ _ hstrat hn2 h2 hQ
              simp only at hq1 hq2
              simp only [] at hok
              rw [hq1] at hok
              rw [if_pos hsb] at hok
              obtain ⟨h3, h4⟩ := ihC _ _ _ _ _ hstrat hok hQ
              exact ⟨h3, bestEvol_trans hp2 (bestEvol_trans hq2 h4)⟩
          · rw [if_neg hsb] at hok
            exact absurd hok (by simp)
      · next h =>
        simp only [Except.ok.injEq] at hok
        subst hok
        exact ⟨rfl, bestEvol_refl T g Q best⟩
    -- sortedFor
    · intro i sg best out hstrat hlast hok hQ
      rw [Transform.sortedFor] at hok
      have hlast' : ∀ lst ∈ sg.getLast?, lst < i + 1 := by
        intro lst hl
        exact Nat.lt_succ_of_lt (hlast lst hl)
      split at hok
      · next h =>
        cases hb : atOrThrow matched i with
        | error e =>
          rw [hb, error_bind] at hok
          exact absurd hok (by simp)
        | ok b =>
          rw [hb, ok_bind] at hok
          by_cases hcond : (!b && T.PatternRule g sg i) = true
          · rw [if_pos hcond] at hok
            rcases Bool.and_eq_true _ _ |>.mp hcond with ⟨hbf, hrule⟩
            have hbfalse : b = false := by
              cases b
              · rfl
              · exact absurd hbf (by decide)
            subst hbfalse
            have hguard : pushGuard T g matched sg i := by
              refine ⟨hb, hrule, ?_⟩
              rw [hstrat]
              exact hlast
            have hQ' : Q (sg ++ [i]) := HQ sg i hQ hguard
            cases hh : Transform.PatternMatchHelper T g matched (sg ++ [i]) best n with
            | error e =>
              rw [hh, error_bind] at hok
              exact absurd hok (by simp)
            | ok p =>
              rw [hh, ok_bind] at hok
              obtain ⟨sg1, best1⟩ := p
              obtain ⟨hp1, hp2⟩ := ihH _ _ _ hh hQ'
              simp only at hp1 hp2
              subst hp1
              simp only [] at hok
              rw [dropLast_snoc] at hok
              obtain ⟨h1, h2⟩ := ihS _ _ _ _ hstrat hlast' hok hQ
              exact ⟨h1, bestEvol_trans hp2 h2⟩
          · rw [if_neg hcond] at hok
            exact ihS _ _ _ _ hstrat hlast' hok hQ
      · next h =>
        simp only [Except.ok.injEq] at hok
        subst hok
        exact ⟨rfl, bestEvol_refl T g Q best⟩
    -- generalFor
    · intro i sg best out hstrat hok hQ
      rw [Transform.generalFor] at hok
      split at hok
      · next h =>
        by_cases hj : i ∈ sg
        · rw [if_pos hj] at hok
          exact ihG _ _ _ _ hstrat hok hQ
        · rw [if_neg hj] at hok
          cases hb : atOrThrow matched i with
          | error e =>
            rw [hb, error_bind] at hok
            exact absurd hok (by simp)
          | ok b =>
            rw [hb, ok_bind] at hok
            by_cases hcond : (!b && T.PatternRule g sg i) = true
            · rw [if_pos hcond] at hok
              rcases Bool.and_eq_true _ _ |>.mp hcond with ⟨hbf, hrule⟩
              have hbfalse : b = false := by
                cases b
                · rfl
                · exact absurd hbf (by decide)
              subst hbfalse
              have hguard : pushGuard T g matched sg i := by
                refine ⟨hb, hrule, ?_⟩
                rw [hstrat]
                exact hj
              have hQ' : Q (sg ++ [i]) := HQ sg i hQ hguard
              cases hh : Transform.PatternMatchHelper T g matched (sg ++ [i]) best n with
              | error e =>
                rw [hh, error_bind] at hok
                exact absurd hok (by simp)
              | ok p =>
                rw [hh, ok_bind] at hok
                obtain ⟨sg1, best1⟩ := p
                obtain ⟨hp1, hp2⟩ := ihH _ _ _ hh hQ'
                simp only at hp1 hp2
                subst hp1
                simp only [] at hok
                rw [dropLast_snoc] at hok
                obtain ⟨h1, h2⟩ := ihG _ _ _ _ hstrat hok hQ
                exact ⟨h1, bestEvol_trans hp2 h2⟩
            · rw [if_neg hcond] at hok
              exact ihG _ _ _ _ hstrat hok hQ
      · next h =>
        simp only [Except.ok.injEq] at hok
        subst hok
        exact ⟨rfl, bestEvol_refl T g Q best⟩

/-! ### Support lemmas for the claim proofs -/

theorem nodup_snoc (l : List Nat) (j : Nat) (hl : l.Nodup) (hj : j ∉ l) :
    (l ++ [j]).Nodup := by
  rw [List.nodup_append]
  refine ⟨hl, List.nodup_singleton j, ?_⟩
  intro a ha hmem
  simp only [List.mem_singleton] at hmem
  subst hmem
  exact hj ha

theorem chain'_snoc (l : List Nat) (j : Nat) (hl : List.Chain' (· < ·) l)
    (hj : ∀ lst ∈ l.getLast?, lst < j) : List.Chain' (· < ·) (l ++ [j]) := by
  rw [List.chain'_append]
  refine ⟨hl, List.chain'_singleton j, ?_⟩
  intro x hx y hy
  simp only [List.head?_cons, Option.mem_def, Option.some.injEq] at hy
  subst hy
  exact hj x hx

theorem chain'_lt_nodup (l : List Nat) (h : List.Chain' (· < ·) l) : l.Nodup :=
  (List.chain'_iff_pairwise.mp h).imp Nat.ne_of_lt

theorem headI_snoc (l : List Nat) (j : Nat) (h : l ≠ []) :
    (l ++ [j]).headI = l.headI := by
  cases l with
  | nil => exact absurd rfl h
  | cons a t => rfl

theorem incAccFrom_append (T : Transform) (g : Graph) :
    ∀ (l pre : List Nat) (j : Nat),
      incAccFrom T g pre (l ++ [j]) =
        (incAccFrom T g pre l && T.PatternRule g (pre ++ l) j) := by
  intro l
  induction l with
  | nil =>
    intro pre j
    simp [incAccFrom]
  | cons a t ih =>
    intro pre j
    simp only [List.cons_append, incAccFrom, List.append_eq, ih (pre ++ [a]) j,
      List.append_assoc, List.singleton_append, List.nil_append, Bool.and_assoc]

theorem incAcc_snoc (T : Transform) (g : Graph) (sg : List Nat) (j : Nat)
    (h : incAcc T g sg = true) (hr : T.PatternRule g sg j = true) :
    incAcc T g (sg ++ [j]) = true := by
  unfold incAcc at h ⊢
  rw [incAccFrom_append, h, List.nil_append, hr]
  rfl

theorem atOrThrow_ok_lt {m : List Bool} {x : Nat} {b : Bool}
    (h : atOrThrow m x = Except.ok b) : x < m.length := by
  unfold atOrThrow at h
  cases hx : m.get? x with
  | none => rw [hx] at h; exact absurd h (by simp)
  | some c => exact (List.get?_eq_some.mp hx).1

theorem atOrThrow_ok_get {m : List Bool} {x : Nat} {b : Bool}
    (h : atOrThrow m x = Except.ok b) : m.get? x = some b := by
  unfold atOrThrow at h
  cases hx : m.get? x with
  | none => rw [hx] at h; exact absurd h (by simp)
  | some c =>
    rw [hx] at h
    simp only [Except.ok.injEq] at h
    subst h
    rfl

theorem markMatched_nil (m : List Bool) : markMatched m [] = m := rfl

theorem markMatched_cons (m : List Bool) (a : Nat) (t : List Nat) :
    markMatched m (a :: t) = markMatched (m.set a true) t := rfl

theorem markMatched_length (xs : List Nat) : ∀ (m : List Bool),
    (markMatched m xs).length = m.length := by
  induction xs with
  | nil => intro m; rfl
  | cons a t ih =>
    intro m
    rw [markMatched_cons, ih, List.length_set]

theorem markMatched_preserve_true (xs : List Nat) : ∀ (m : List Bool) (x : Nat),
    m.get? x = some true → (markMatched m xs).get? x = some true := by
  induction xs with
  | nil => intro m x h; exact h
  | cons a t ih =>
    intro m x h
    rw [markMatched_cons]
    apply ih
    by_cases hax : a = x
    · subst hax
      have hlt : a < m.length := (List.get?_eq_some.mp h).1
      rw [List.get?_set_eq_of_lt true hlt]
    · rw [List.get?_set_ne true m hax]
      exact h

theorem markMatched_mem_true (xs : List Nat) : ∀ (m : List Bool) (x : Nat),
    x ∈ xs → x < m.length → (markMatched m xs).get? x = some true := by
  induction xs with
  | nil => intro m x hx; cases hx
  | cons a t ih =>
    intro m x hx hlt
    rw [markMatched_cons]
    rcases List.mem_cons.mp hx with rfl | hxt
    · apply markMatched_preserve_true
      rw [List.get?_set_eq_of_lt true hlt]
    · exact ih (m.set a true) x hxt (by rw [List.length_set]; exact hlt)

theorem adjSym_symm {g : Graph} {a b : Nat} (h : AdjSym g a b) : AdjSym g b a :=
  h.elim Or.inr Or.inl

/-- A connectedly-grown subgraph induces a connected sub-structure over
the parent/child adjacency: any two of its members are joined by a path
of adjacent members. -/
theorem grown_connected (g : Graph) (l : List Nat) (hg : Grown g l) :
    ∀ x ∈ l, ∀ y ∈ l,
      Relation.ReflTransGen (fun a b => a ∈ l ∧ b ∈ l ∧ AdjSym g a b) x y := by
  induction hg with
  | single z =>
    intro x hx y hy
    simp only [List.mem_singleton] at hx hy
    subst hx; subst hy
    exact Relation.ReflTransGen.refl
  | snoc l j hgl hx ih =>
    have hsym : Symmetric (fun a b => a ∈ l ++ [j] ∧ b ∈ l ++ [j] ∧ AdjSym g a b) := by
      intro a b hab
      exact ⟨hab.2.1, hab.1, adjSym_symm hab.2.2⟩
    have hmono : ∀ x y, Relation.ReflTransGen (fun a b => a ∈ l ∧ b ∈ l ∧ AdjSym g a b) x y →
        Relation.ReflTransGen (fun a b => a ∈ l ++ [j] ∧ b ∈ l ++ [j] ∧ AdjSym g a b) x y := by
      intro x y hxy
      refine Relation.ReflTransGen.mono ?_ hxy
      intro a b hab
      exact ⟨List.mem_append_left _ hab.1, List.mem_append_left _ hab.2.1, hab.2.2⟩
    obtain ⟨x0, hx0, hnb⟩ := hx
    have hx0m : x0 ∈ l ++ [j] := List.mem_append_left _ hx0
    have hjm : j ∈ l ++ [j] := List.mem_append_right _ (List.mem_singleton.mpr rfl)
    have hstep : ∀ z ∈ l,
        Relation.ReflTransGen (fun a b => a ∈ l ++ [j] ∧ b ∈ l ++ [j] ∧ AdjSym g a b) z j := by
      intro z hz
      exact (hmono z x0 (ih z hz x0 hx0)).tail ⟨hx0m, hjm, Or.inl hnb⟩
    intro x hxm y hym
    rcases List.mem_append.mp hxm with hxl | hxj
    · rcases List.mem_append.mp hym with hyl | hyj
      · exact hmono x y (ih x hxl y hyl)
      · simp only [List.mem_singleton] at hyj
        subst hyj
        exact hstep x hxl
    · simp only [List.mem_singleton] at hxj
      subst hxj
      rcases List.mem_append.mp hym with hyl | hyj
      · exact Relation.ReflTransGen.symmetric hsym (hstep y hyl)
      · simp only [List.mem_singleton] at hyj
        subst hyj
        exact Relation.ReflTransGen.refl

/-! ### The scan loop of `PatternMatch` -/

theorem patternMatchForInv (T : Transform) (g : Graph)
    (Motive : List Bool → List (List Nat) → Nat → Prop)
    (Hskip : ∀ matched ml idx, Motive matched ml idx → Motive matched ml (idx + 1))
    (Hrec : ∀ matched ml idx sg1 best,
      Motive matched ml idx →
      atOrThrow matched idx = Except.ok false →
      T.PatternRule g [] idx = true →
      Transform.PatternMatchHelper T g matched [idx] [] (matchFuel g) =
        Except.ok (sg1, best) →
      0 < best.length →
      Motive (markMatched matched best) (ml ++ [best]) (idx + 1)) :
    ∀ (remaining : Nat) (matched : List Bool) (ml : List (List Nat)) (idx : Nat)
      (ms : List (List Nat)),
      Motive matched ml idx →
      Transform.patternMatchFor T g matched ml idx remaining = Except.ok ms →
      ∃ matchedF idxF, Motive matchedF ms idxF := by
  intro remaining
  induction remaining with
  | zero =>
    intro matched ml idx ms hM hok
    rw [Transform.patternMatchFor] at hok
    simp only [Except.ok.injEq] at hok
    subst hok
    exact ⟨matched, idx, hM⟩
  | succ rem ih =>
    intro matched ml idx ms hM hok
    rw [Transform.patternMatchFor] at hok
    cases hb : atOrThrow matched idx with
    | error e =>
      rw [hb, error_bind] at hok
      exact absurd hok (by simp)
    | ok b =>
      rw [hb, ok_bind] at hok
      by_cases hcond : (!b && T.PatternRule g [] idx) = true
      · rw [if_pos hcond] at hok
        rcases Bool.and_eq_true _ _ |>.mp hcond with ⟨hbf, hrule⟩
        have hbfalse : b = false := by
          cases b
          · rfl
          · exact absurd hbf (by decide)
        subst hbfalse
        cases hh : Transform.PatternMatchHelper T g matched [idx] [] (matchFuel g) with
        | error e =>
          rw [hh] at hok
          simp only [error_bind] at hok
          exact absurd hok (by simp)
        | ok p =>
          rw [hh] at hok
          simp only [ok_bind] at hok
          obtain ⟨sg1, best1⟩ := p
          simp only [] at hok
          rw [pure_eq_ok, ok_bind] at hok
          by_cases hlen : best1.length > 0
          · rw [if_pos hlen] at hok
            exact ih _ _ _ _ (Hrec matched ml idx sg1 best1 hM hb hrule hh hlen) hok
          · rw [if_neg hlen] at hok
            exact ih _ _ _ _ (Hskip matched ml idx hM) hok
      · rw [if_neg hcond] at hok
        simp only [pure_eq_ok, ok_bind, List.length_nil] at hok
        rw [if_neg (by decide)] at hok
        exact ih _ _ _ _ (Hskip matched ml idx hM) hok

/-! ### Unfolding equations for `ReplacePattern` -/

theorem replacePattern_nil (T : Transform) (g : Graph) :
    Transform.ReplacePattern T [] g = (g, none) := rfl

theorem replacePattern_cons (T : Transform) (m : List Nat)
    (rest : List (List Nat)) (g : Graph) :
    Transform.ReplacePattern T (m :: rest) g =
      (if (m.all fun idx => g.is_node_active idx) then
        (if (T.ReplaceRule m g).1 then
          Transform.ReplacePattern T rest (T.ReplaceRule m g).2
        else
          ((T.ReplaceRule m g).2, some "Replace failed!"))
      else
        Transform.ReplacePattern T rest g) := rfl

theorem replacePattern_append (T : Transform) (pre : List (List Nat)) :
    ∀ (rest : List (List Nat)) (g g1 : Graph),
      Transform.ReplacePattern T pre g = (g1, none) →
      Transform.ReplacePattern T (pre ++ rest) g =
        Transform.ReplacePattern T rest g1 := by
  induction pre with
  | nil =>
    intro rest g g1 h
    rw [replacePattern_nil] at h
    simp only [Prod.mk.injEq] at h
    rw [List.nil_append, h.1]
  | cons m pre ih =>
    intro rest g g1 h
    rw [replacePattern_cons] at h
    rw [List.cons_append, replacePattern_cons]
    by_cases hact : (m.all fun idx => g.is_node_active idx) = true
    · rw [if_pos hact] at h ⊢
      by_cases hres : (T.ReplaceRule m g).1 = true
      · rw [if_pos hres] at h ⊢
        exact ih rest _ g1 h
      · rw [if_neg hres] at h
        simp only [Prod.mk.injEq] at h
        exact absurd h.2 (by simp)
    · rw [if_neg hact] at h ⊢
      exact ih rest g g1 h

/-! ### Properties of a newly recorded best subgraph -/

theorem newBest_props (T : Transform) (g : Graph) (matched : List Bool)
    (Q : List Nat → Prop)
    (HQ : ∀ sg j, Q sg → pushGuard T g matched sg j → Q (sg ++ [j]))
    (idx : Nat) (sg1 best : List Nat) (hQidx : Q [idx])
    (hh : Transform.PatternMatchHelper T g matched [idx] [] (matchFuel g) =
      Except.ok (sg1, best))
    (hlen : 0 < best.length) : Q best ∧ T.ValidatorRule g best = true := by
  obtain ⟨-, hevol⟩ :=
    (matchInvariant T g matched Q HQ (matchFuel g)).1 [idx] [] (sg1, best) hh hQidx
  rcases hevol with heq | ⟨_, hQb, hVb⟩
  · simp only at heq
    rw [heq] at hlen
    exact absurd hlen (by decide)
  · exact ⟨hQb, hVb⟩

/-- Every match in the result of `PatternMatch` was, at the moment it
was recorded, a non-empty best buffer produced by a helper run started
from its scan index; this lemma lifts any per-recording property `P` to
all returned matches. -/
theorem patternMatch_forall (T : Transform) (g : Graph) (P : List Nat → Prop)
    (Hnew : ∀ (matched : List Bool) (idx : Nat) (sg1 best : List Nat),
      atOrThrow matched idx = Except.ok false →
      T.PatternRule g [] idx = true →
      Transform.PatternMatchHelper T g matched [idx] [] (matchFuel g) =
        Except.ok (sg1, best) →
      0 < best.length → P best)
    (ms : List (List Nat)) (h : Transform.PatternMatch T g = Except.ok ms) :
    ∀ m ∈ ms, P m := by
  rw [Transform.PatternMatch] at h
  have hinv := patternMatchForInv T g (fun _ ml _ => ∀ m ∈ ml, P m)
    (fun _ _ _ hM => hM)
    (fun matched ml idx sg1 best hM hb hr hh hlen => by
      intro m hm
      rcases List.mem_append.mp hm with hml | hmb
      · exact hM m hml
      · simp only [List.mem_singleton] at hmb
        rw [hmb]
        exact Hnew matched idx sg1 best hb hr hh hlen)
    g.size (List.replicate g.size false) [] 0 ms (by intro m hm; cases hm) h
  obtain ⟨mf, idxf, hP⟩ := hinv
  exact hP

/-! ### The claims -/

/-- C5: under every strategy and on every non-throwing exit path, the
recursive expansion returns the working subgraph exactly as it was
before the call (the property the `CAFFE_ENFORCE` size check of the
connected branch asserts), and likewise for `TryNeighbors`. -/
theorem C5_subgraph_restored (T : Transform) (g : Graph) (matched : List Bool)
    (sg best : List Nat) (fuel : Nat) (out : List Nat × List Nat) :
    (Transform.PatternMatchHelper T g matched sg best fuel = Except.ok out →
      out.1 = sg) ∧
    (∀ nb, T.pattern_match_type_ = PatternMatchType.CONNECTED_SUBGRAPH →
      (∀ j ∈ nb.map Prod.fst, ∃ x ∈ sg, IsNeighbor g x j) →
      Transform.TryNeighbors T g nb matched sg best fuel = Except.ok out →
      out.1 = sg) := by
  have hinv := matchInvariant T g matched (fun _ => True) (fun _ _ _ _ => trivial) fuel
  constructor
  · intro h
    exact (hinv.1 sg best out h trivial).1
  · intro nb hstrat hn h
    exact (hinv.2.1 nb sg best out hstrat hn h trivial).1

theorem C5_witness :
    Transform.PatternMatchHelper connAllT chainGraph (List.replicate 3 false)
      [0] [] (matchFuel chainGraph) = Except.ok ([0], [0, 1, 2]) ∧
    (([0], [0, 1, 2]) : List Nat × List Nat).1 = [0] :=
  ⟨rfl,
    (C5_subgraph_restored connAllT chainGraph (List.replicate 3 false)
      [0] [] (matchFuel chainGraph) ([0], [0, 1, 2])).1 rfl⟩

/-- C6: the best buffer is overwritten with the working subgraph exactly
when `ValidatorRule` holds for it and it is strictly longer than the
current best; consequently, across a whole helper run the best buffer
either stays untouched or ends strictly longer and validated, and in
particular a valid subgraph of merely equal size never replaces the
first-found best. -/
theorem C6_best_overwrite (T : Transform) (g : Graph) :
    (∀ sg best, updateBest T g sg best =
      if T.ValidatorRule g sg = true ∧ best.length < sg.length then sg else best) ∧
    (∀ matched sg best fuel out,
      Transform.PatternMatchHelper T g matched sg best fuel = Except.ok out →
      out.2 = best ∨ (best.length < out.2.length ∧ T.ValidatorRule g out.2 = true)) ∧
    (∀ matched sg best fuel out,
      Transform.PatternMatchHelper T g matched sg best fuel = Except.ok out →
      out.2.length = best.length → out.2 = best) := by
  have hinv := fun matched fuel =>
    matchInvariant T g matched (fun _ => True) (fun _ _ _ _ => trivial) fuel
  refine ⟨?_, ?_, ?_⟩
  · intro sg best
    unfold updateBest
    split
    · next hc =>
      rcases Bool.and_eq_true _ _ |>.mp hc with ⟨hV, hlen⟩
      rw [if_pos (show T.ValidatorRule g sg = true ∧ best.length < sg.length from
        ⟨hV, of_decide_eq_true hlen⟩)]
    · next hc =>
      have hnc : ¬(T.ValidatorRule g sg = true ∧ best.length < sg.length) := by
        intro hand
        apply hc
        rw [hand.1, Bool.true_and]
        exact decide_eq_true hand.2
      rw [if_neg hnc]
  · intro matched sg best fuel out h
    rcases ((hinv matched fuel).1 sg best out h trivial).2 with heq | ⟨hlt, -, hVb⟩
    · exact Or.inl heq
    · exact Or.inr ⟨hlt, hVb⟩
  · intro matched sg best fuel out h hLen
    rcases ((hinv matched fuel).1 sg best out h trivial).2 with heq | ⟨hlt, -, -⟩
    · exact heq
    · rw [hLen] at hlt
      exact absurd hlt (Nat.lt_irrefl _)

theorem C6_witness :
    ([0, 1, 2] : List Nat) = [] ∨
      (([] : List Nat).length < ([0, 1, 2] : List Nat).length ∧
        connAllT.ValidatorRule chainGraph [0, 1, 2] = true) :=
  (C6_best_overwrite connAllT chainGraph).2.1 (List.replicate 3 false)
    [0] [] (matchFuel chainGraph) ([0], [0, 1, 2]) rfl

/-- C3: `ReplacePattern` processes matches in order; a match with an
inactive member is skipped wholesale — the graph is not touched, no
error is raised, and processing continues with the remaining matches —
while a match whose members are all active has `ReplaceRule` invoked on
it, its outcome deciding between continuing on the rewritten graph and
aborting. -/
theorem C3_skip_iff_stale (T : Transform) (g : Graph) (m : List Nat)
    (rest : List (List Nat)) :
    ((∃ x ∈ m, g.is_node_active x = false) →
      Transform.ReplacePattern T (m :: rest) g = Transform.ReplacePattern T rest g) ∧
    ((m.all fun idx => g.is_node_active idx) = true →
      Transform.ReplacePattern T (m :: rest) g =
        (if (T.ReplaceRule m g).1 then
          Transform.ReplacePattern T rest (T.ReplaceRule m g).2
        else
          ((T.ReplaceRule m g).2, some "Replace failed!"))) := by
  constructor
  · intro hstale
    obtain ⟨x, hx, hinact⟩ := hstale
    rw [replacePattern_cons]
    rw [if_neg ?_]
    intro hall
    rw [List.all_eq_true] at hall
    have := hall x hx
    rw [hinact] at this
    exact absurd this (by decide)
  · intro hall
    rw [replacePattern_cons, if_pos hall]

theorem C3_witness :
    Transform.ReplacePattern wRepT [[1]] (deactivateNodes [1] chainGraph) =
      Transform.ReplacePattern wRepT [] (deactivateNodes [1] chainGraph) :=
  (C3_skip_iff_stale wRepT (deactivateNodes [1] chainGraph) [1] []).1
    ⟨1, by simp, rfl⟩

/-- C4: if `ReplaceRule` returns `false` on a match whose members are
all active, the apply phase stops right there: the graph keeps every
rewrite applied to it so far (no rollback), the failure message is
raised, and the remaining matches are never attempted (the result does
not depend on them). -/
theorem C4_rewrite_failure_aborts (T : Transform) (g g1 g2 : Graph)
    (pre : List (List Nat)) (m : List Nat) (rest : List (List Nat))
    (h1 : Transform.ReplacePattern T pre g = (g1, none))
    (h2 : (m.all fun idx => g1.is_node_active idx) = true)
    (h3 : T.ReplaceRule m g1 = (false, g2)) :
    Transform.ReplacePattern T (pre ++ m :: rest) g = (g2, some "Replace failed!") := by
  rw [replacePattern_append T pre (m :: rest) g g1 h1, replacePattern_cons,
    if_pos h2, h3]
  simp

theorem C4_witness :
    Transform.ReplacePattern wRepT ([[0]] ++ [1] :: [[2]]) chainGraph =
      (deactivateNodes [0] chainGraph, some "Replace failed!") :=
  C4_rewrite_failure_aborts wRepT chainGraph (deactivateNodes [0] chainGraph)
    (deactivateNodes [0] chainGraph) [[0]] [1] [[2]] rfl rfl rfl

/-- C1: for every graph and rule set, every match returned by
`PatternMatch` is a sequence of pairwise-distinct node indices, each
element accepted by `PatternRule` against the prefix preceding it, and
the whole sequence passes `ValidatorRule`. -/
theorem C1_matches_distinct_accepted_valid (T : Transform) (g : Graph)
    (ms : List (List Nat)) (h : Transform.PatternMatch T g = Except.ok ms) :
    ∀ m ∈ ms, m.Nodup ∧ incAcc T g m = true ∧ T.ValidatorRule g m = true := by
  refine patternMatch_forall T g _ ?_ ms h
  intro matched idx sg1 best hb hrule hh hlen
  cases hstrat : T.pattern_match_type_ with
  | CONNECTED_SUBGRAPH =>
    have HQ : ∀ sg j, (sg.Nodup ∧ incAcc T g sg = true) →
        pushGuard T g matched sg j →
        ((sg ++ [j]).Nodup ∧ incAcc T g (sg ++ [j]) = true) := by
      intro sg j hQ hg
      obtain ⟨hmb, hrul, hextra⟩ := hg
      simp only [hstrat] at hextra
      exact ⟨nodup_snoc sg j hQ.1 hextra.1, incAcc_snoc T g sg j hQ.2 hrul⟩
    have hQidx : (([idx] : List Nat).Nodup ∧ incAcc T g [idx] = true) :=
      ⟨List.nodup_singleton idx, by simp [incAcc, incAccFrom, hrule]⟩
    obtain ⟨hQb, hVb⟩ := newBest_props T g matched _ HQ idx sg1 best hQidx hh hlen
    exact ⟨hQb.1, hQb.2, hVb⟩
  | SORTED_WRT_EXECUTION_ORDER =>
    have HQ : ∀ sg j, (List.Chain' (· < ·) sg ∧ incAcc T g sg = true) →
        pushGuard T g matched sg j →
        (List.Chain' (· < ·) (sg ++ [j]) ∧ incAcc T g (sg ++ [j]) = true) := by
      intro sg j hQ hg
      obtain ⟨hmb, hrul, hextra⟩ := hg
      simp only [hstrat] at hextra
      exact ⟨chain'_snoc sg j hQ.1 hextra, incAcc_snoc T g sg j hQ.2 hrul⟩
    have hQidx : (List.Chain' (· < ·) ([idx] : List Nat) ∧ incAcc T g [idx] = true) :=
      ⟨List.chain'_singleton idx, by simp [incAcc, incAccFrom, hrule]⟩
    obtain ⟨hQb, hVb⟩ := newBest_props T g matched _ HQ idx sg1 best hQidx hh hlen
    exact ⟨chain'_lt_nodup best hQb.1, hQb.2, hVb⟩
  | GENERAL =>
    have HQ : ∀ sg j, (sg.Nodup ∧ incAcc T g sg = true) →
        pushGuard T g matched sg j →
        ((sg ++ [j]).Nodup ∧ incAcc T g (sg ++ [j]) = true) := by
      intro sg j hQ hg
      obtain ⟨hmb, hrul, hextra⟩ := hg
      simp only [hstrat] at hextra
      exact ⟨nodup_snoc sg j hQ.1 hextra, incAcc_snoc T g sg j hQ.2 hrul⟩
    have hQidx : (([idx] : List Nat).Nodup ∧ incAcc T g [idx] = true) :=
      ⟨List.nodup_singleton idx, by simp [incAcc, incAccFrom, hrule]⟩
    obtain ⟨hQb, hVb⟩ := newBest_props T g matched _ HQ idx sg1 best hQidx hh hlen
    exact ⟨hQb.1, hQb.2, hVb⟩

theorem C1_witness :
    ([0, 1, 2] : List Nat).Nodup ∧ incAcc connAllT chainGraph [0, 1, 2] = true ∧
      connAllT.ValidatorRule chainGraph [0, 1, 2] = true :=
  C1_matches_distinct_accepted_valid connAllT chainGraph [[0, 1, 2]] rfl
    [0, 1, 2] (by simp)

/-- C2: no two distinct matches returned by one `PatternMatch` call
share a node index — every recorded match is immediately marked in the
matched registry and the registry gates every later candidate. -/
theorem C2_matches_disjoint (T : Transform) (g : Graph) (ms : List (List Nat))
    (h : Transform.PatternMatch T g = Except.ok ms) :
    ms.Pairwise (fun a b => ∀ x ∈ a, x ∉ b) := by
  rw [Transform.PatternMatch] at h
  obtain ⟨mf, idxf, hP⟩ := patternMatchForInv T g
    (fun matched ml _ => ml.Pairwise (fun a b => ∀ x ∈ a, x ∉ b) ∧
      ∀ m ∈ ml, ∀ x ∈ m, matched.get? x = some true)
    (fun _ _ _ hM => hM)
    (fun matched ml idx sg1 best hM hb hrule hh hlen => by
      have HQ : ∀ sg j, (∀ x ∈ sg, atOrThrow matched x = Except.ok false) →
          pushGuard T g matched sg j →
          (∀ x ∈ sg ++ [j], atOrThrow matched x = Except.ok false) := by
        intro sg j hQ hg x hx
        rcases List.mem_append.mp hx with hxl | hxj
        · exact hQ x hxl
        · simp only [List.mem_singleton] at hxj
          rw [hxj]
          exact hg.1
      have hQidx : ∀ x ∈ ([idx] : List Nat), atOrThrow matched x = Except.ok false := by
        intro x hx
        simp only [List.mem_singleton] at hx
        rw [hx]
        exact hb
      have hQbest := (newBest_props T g matched _ HQ idx sg1 best hQidx hh hlen).1
      constructor
      · rw [List.pairwise_append]
        refine ⟨hM.1, List.pairwise_singleton _ _, ?_⟩
        intro a ha b hbm
        simp only [List.mem_singleton] at hbm
        rw [hbm]
        intro x hxa hxb
        have h1 : matched.get? x = some true := hM.2 a ha x hxa
        have h2 : matched.get? x = some false := atOrThrow_ok_get (hQbest x hxb)
        rw [h1] at h2
        exact absurd h2 (by simp)
      · intro m hm x hx
        rcases List.mem_append.mp hm with hml | hmb
        · exact markMatched_preserve_true best matched x (hM.2 m hml x hx)
        · simp only [List.mem_singleton] at hmb
          rw [hmb] at hx
          exact markMatched_mem_true best matched x hx (atOrThrow_ok_lt (hQbest x hx)))
    g.size (List.replicate g.size false) [] 0 ms
    ⟨List.Pairwise.nil, fun m hm => absurd hm (List.not_mem_nil m)⟩ h
  exact hP.1

theorem C2_witness :
    ([[0], [1], [2]] : List (List Nat)).Pairwise (fun a b => ∀ x ∈ a, x ∉ b) :=
  C2_matches_disjoint singleT chainGraph [[0], [1], [2]] rfl

/-- C7: under the execution-order strategy every match returned by
`PatternMatch` has strictly increasing node indices. -/
theorem C7_sorted_strictly_increasing (T : Transform) (g : Graph)
    (ms : List (List Nat))
    (hstrat : T.pattern_match_type_ = PatternMatchType.SORTED_WRT_EXECUTION_ORDER)
    (h : Transform.PatternMatch T g = Except.ok ms) :
    ∀ m ∈ ms, List.Chain' (· < ·) m := by
  refine patternMatch_forall T g _ ?_ ms h
  intro matched idx sg1 best hb hrule hh hlen
  have HQ : ∀ sg j, List.Chain' (· < ·) sg → pushGuard T g matched sg j →
      List.Chain' (· < ·) (sg ++ [j]) := by
    intro sg j hQ hg
    obtain ⟨hmb, hrul, hextra⟩ := hg
    simp only [hstrat] at hextra
    exact chain'_snoc sg j hQ hextra
  exact (newBest_props T g matched _ HQ idx sg1 best
    (List.chain'_singleton idx) hh hlen).1

theorem C7_witness : List.Chain' (· < ·) ([0, 1, 2] : List Nat) :=
  C7_sorted_strictly_increasing sortedAllT chainGraph [[0, 1, 2]] rfl rfl
    [0, 1, 2] (by simp)

/-- C8: under the connected strategy every match returned by
`PatternMatch` is grown by appending parent/child neighbors of nodes
already present, and therefore induces a connected sub-structure over
the parent/child adjacency: any two of its members are joined by a path
of adjacent match members. -/
theorem C8_connected_matches (T : Transform) (g : Graph) (ms : List (List Nat))
    (hstrat : T.pattern_match_type_ = PatternMatchType.CONNECTED_SUBGRAPH)
    (h : Transform.PatternMatch T g = Except.ok ms) :
    ∀ m ∈ ms, Grown g m ∧
      ∀ x ∈ m, ∀ y ∈ m,
        Relation.ReflTransGen (fun a b => a ∈ m ∧ b ∈ m ∧ AdjSym g a b) x y := by
  refine patternMatch_forall T g _ ?_ ms h
  intro matched idx sg1 best hb hrule hh hlen
  have HQ : ∀ sg j, Grown g sg → pushGuard T g matched sg j → Grown g (sg ++ [j]) := by
    intro sg j hQ hg
    obtain ⟨hmb, hrul, hextra⟩ := hg
    simp only [hstrat] at hextra
    exact Grown.snoc sg j hQ hextra.2
  have hgrown := (newBest_props T g matched _ HQ idx sg1 best
    (Grown.single idx) hh hlen).1
  exact ⟨hgrown, grown_connected g best hgrown⟩

theorem C8_witness :
    Grown chainGraph [0, 1, 2] ∧
      ∀ x ∈ ([0, 1, 2] : List Nat), ∀ y ∈ ([0, 1, 2] : List Nat),
        Relation.ReflTransGen
          (fun a b => a ∈ ([0, 1, 2] : List Nat) ∧ b ∈ ([0, 1, 2] : List Nat) ∧
            AdjSym chainGraph a b) x y :=
  C8_connected_matches connAllT chainGraph [[0, 1, 2]] rfl rfl [0, 1, 2] (by simp)

/-- C10: every match returned by `PatternMatch` is non-empty, its first
element is the scan start index that produced it — in particular it was
accepted by `PatternRule` against the empty subgraph — and the list of
matches is ordered by strictly increasing first element. -/
theorem C10_head_is_start (T : Transform) (g : Graph) (ms : List (List Nat))
    (h : Transform.PatternMatch T g = Except.ok ms) :
    (∀ m ∈ ms, m ≠ [] ∧ T.PatternRule g [] m.headI = true) ∧
      List.Chain' (· < ·) (ms.map List.headI) := by
  rw [Transform.PatternMatch] at h
  obtain ⟨mf, idxf, hP⟩ := patternMatchForInv T g
    (fun _ ml idx =>
      (∀ m ∈ ml, m ≠ [] ∧ T.PatternRule g [] m.headI = true ∧ m.headI < idx) ∧
      List.Chain' (· < ·) (ml.map List.headI))
    (fun matched ml idx hM =>
      ⟨fun m hm => ⟨(hM.1 m hm).1, (hM.1 m hm).2.1,
        Nat.lt_succ_of_lt (hM.1 m hm).2.2⟩, hM.2⟩)
    (fun matched ml idx sg1 best hM hb hrule hh hlen => by
      have HQ : ∀ sg j, (sg ≠ [] ∧ sg.headI = idx) → pushGuard T g matched sg j →
          ((sg ++ [j]) ≠ [] ∧ (sg ++ [j]).headI = idx) := by
        intro sg j hQ hg
        refine ⟨by simp, ?_⟩
        rw [headI_snoc sg j hQ.1]
        exact hQ.2
      have hQidx : (([idx] : List Nat) ≠ [] ∧ ([idx] : List Nat).headI = idx) :=
        ⟨by simp, rfl⟩
      have hQbest := (newBest_props T g matched _ HQ idx sg1 best hQidx hh hlen).1
      constructor
      · intro m hm
        rcases List.mem_append.mp hm with hml | hmb
        · exact ⟨(hM.1 m hml).1, (hM.1 m hml).2.1,
            Nat.lt_succ_of_lt (hM.1 m hml).2.2⟩
        · simp only [List.mem_singleton] at hmb
          rw [hmb]
          refine ⟨hQbest.1, ?_, ?_⟩
          · rw [hQbest.2]
            exact hrule
          · rw [hQbest.2]
            exact Nat.lt_succ_self idx
      · rw [List.map_append]
        simp only [List.map_cons, List.map_nil]
        apply chain'_snoc
        · exact hM.2
        · intro lst hlst
          rw [hQbest.2]
          obtain ⟨hne, heq⟩ := List.mem_getLast?_eq_getLast hlst
          have hmem : lst ∈ ml.map List.headI := by
            rw [heq]
            exact List.getLast_mem hne
          obtain ⟨m, hml, hhead⟩ := List.mem_map.mp hmem
          rw [← hhead]
          exact (hM.1 m hml).2.2)
    g.size (List.replicate g.size false) [] 0 ms
    ⟨fun m hm => absurd hm (List.not_mem_nil m), by simp⟩ h
  exact ⟨fun m hm => ⟨(hP.1 m hm).1, (hP.1 m hm).2.1⟩, hP.2⟩

theorem C10_witness :
    (∀ m ∈ ([[0], [1], [2]] : List (List Nat)),
      m ≠ [] ∧ singleT.PatternRule chainGraph [] m.headI = true) ∧
      List.Chain' (· < ·) (([[0], [1], [2]] : List (List Nat)).map List.headI) :=
  C10_head_is_start singleT chainGraph [[0], [1], [2]] rfl
